import Mathlib

/-!
Verification development for the `rst` task-scheduling engine and file
utilities.

The scheduler's data model follows `rst/task_runner/item.h` /
`rst/task_runner/thread_task_runner.h` (the `Item` record, the priority
queue `queue_`, the `task_id_` counter, the `should_exit_` flag and the
injected `time_function_`).  The scheduler's operational definitions are
modelled from the spec where the repository's `.cpp` implementations of
`ThreadTaskRunner` / `ThreadPoolTaskRunner` are not available, as noted
on each definition.  The file utilities (`WriteFile`,
`WriteImportantFile`, `ReadFile`) are embedded directly from
`rst/files/file_utils.cc`.

Times (`std::chrono::milliseconds`) are embedded as `Int`, the
`uint64_t` sequence counter `task_id_` as `Nat` (the counter only ever
increments by one per post, so the 2^64 wrap-around is unreachable in
any execution the claims quantify over), and a task body as an opaque
`Nat` label whose execution effect is recorded by appending its decimal
rendering to an execution log (matching the observation used by the
repository's tests, `str += std::to_string(i)`).
-/

namespace Rst

/-- Scheduled item, from `rst::internal::Item` (`item.h` / `Item.cpp`):
due time `time_point`, post-sequence number `task_id`, and the task. -/
structure Item where
  time_point : Int
  task_id : Nat
  task : Nat
  deriving Repr, DecidableEq

/-- Lexicographic (due time, sequence) order on scheduled items. -/
def itemLe (a b : Item) : Prop :=
  a.time_point < b.time_point ∨
    (a.time_point = b.time_point ∧ a.task_id ≤ b.task_id)

instance : DecidableRel itemLe := fun a b => by
  unfold itemLe; infer_instance

theorem itemLe_total (a b : Item) : itemLe a b ∨ itemLe b a := by
  unfold itemLe
  rcases lt_trichotomy a.time_point b.time_point with h | h | h
  · exact Or.inl (Or.inl h)
  · rcases Nat.le_total a.task_id b.task_id with h2 | h2
    · exact Or.inl (Or.inr ⟨h, h2⟩)
    · exact Or.inr (Or.inr ⟨h.symm, h2⟩)
  · exact Or.inr (Or.inl h)

theorem itemLe_trans {a b c : Item} (hab : itemLe a b) (hbc : itemLe b c) :
    itemLe a c := by
  unfold itemLe at *
  rcases hab with h1 | ⟨h1, h1'⟩ <;> rcases hbc with h2 | ⟨h2, h2'⟩
  · exact Or.inl (h1.trans h2)
  · exact Or.inl (h2 ▸ h1)
  · exact Or.inl (h1 ▸ h2)
  · exact Or.inr ⟨h1.trans h2, h1'.trans h2'⟩

instance : IsTotal Item itemLe := ⟨itemLe_total⟩

instance : IsTrans Item itemLe := ⟨fun _ _ _ => itemLe_trans⟩

instance : IsRefl Item itemLe := ⟨fun _ => Or.inr ⟨rfl, le_refl _⟩⟩

/-- Modelled from the spec: the missing queue implementation behind
`std::vector<internal::Item> queue_` ("Priority queue of tasks"), as the
spec's "ordered container exposing peek/extract the item with smallest
(due time, sequence)" (design note: "binary min-heap or an ordered
tree"); embedded as an ordered list kept sorted by `itemLe`. -/
def queueInsert (it : Item) (q : List Item) : List Item :=
  List.orderedInsert itemLe it q

/-- Modelled from the spec: extraction peeks/removes the front of the
ordered container (the smallest (due time, sequence) item). -/
def extractMin : List Item → Option (Item × List Item)
  | [] => none
  | x :: rest => some (x, rest)

/-- Queue states reachable from the empty queue by insertions and
extractions, the shapes over which the queue invariant is claimed. -/
inductive QueueReachable : List Item → Prop
  | empty : QueueReachable []
  | insert (it : Item) {q : List Item} :
      QueueReachable q → QueueReachable (queueInsert it q)
  | extract {q : List Item} {x : Item} {rest : List Item} :
      QueueReachable q → extractMin q = some (x, rest) → QueueReachable rest

theorem reachable_sorted {q : List Item} (h : QueueReachable q) :
    List.Sorted itemLe q := by
  induction h with
  | empty => exact List.sorted_nil
  | insert it _ ih => exact ih.orderedInsert it _
  | @extract q x rest _ hx ih =>
    cases q with
    | nil => cases hx
    | cons a l =>
      cases hx
      exact ih.of_cons

/-- Internal state shared by the runner handle and its worker(s), from
`ThreadTaskRunner::InternalTaskRunner`: the injected clock's current
reading (`time_function_()`), the priority queue `queue_`, the
increasing counter `task_id_`, the shutdown flag `should_exit_`, and
the observable execution log of already-run tasks. -/
structure RunnerState where
  now : Int
  queue : List Item
  task_id : Nat
  should_exit : Bool
  log : List String
  deriving Repr, DecidableEq

/-- Fresh internal state with the injected clock reading `n`
(`task_id_ = 0`, `should_exit_ = false`, empty queue). -/
def initState (n : Int) : RunnerState :=
  { now := n, queue := [], task_id := 0, should_exit := false, log := [] }

/-- Modelled from the spec: the missing `PostDelayedTask` body (§4.1).
Precondition `delay ≥ 0` (`RST_DCHECK(delay >= 0)`) is a fail-fast
contract failure, embedded as `none`; otherwise the item is inserted
with `due_time = current_time() + delay` and the next sequence
number. -/
def postDelayedTask (s : RunnerState) (task : Nat) (delay : Int) :
    Option RunnerState :=
  if delay < 0 then
    none
  else
    some { s with
      queue := queueInsert ⟨s.now + delay, s.task_id, task⟩ s.queue,
      task_id := s.task_id + 1 }

/-- Modelled from the spec: `PostTask(task)` posts the task for
immediate execution — due time is the current time, the next sequence
number is assigned, and the item is inserted; posting immediately has
no delay precondition to violate, so it always succeeds. -/
def postTask (s : RunnerState) (task : Nat) : RunnerState :=
  { s with
    queue := queueInsert ⟨s.now, s.task_id, task⟩ s.queue,
    task_id := s.task_id + 1 }

/-- Sequence of posts through `PostDelayedTask`, front first; `none` as
soon as one post violates the delay contract. -/
def postMany (s : RunnerState) : List (Nat × Int) → Option RunnerState
  | [] => some s
  | (t, d) :: ps => (postDelayedTask s t d).bind fun s' => postMany s' ps

/-- Modelled from the spec: one worker wake-up (§4.2) — extract and run
every item whose `due_time ≤ current_time()`, in ascending
(due time, sequence) order, stopping at the first not-yet-due item.
Returns the remaining queue and the log entries of the executed
tasks, in execution order. -/
def drainList (now : Int) : List Item → List Item × List String
  | [] => ([], [])
  | it :: rest =>
    if it.time_point ≤ now then
      let p := drainList now rest
      (p.1, toString it.task :: p.2)
    else
      (it :: rest, [])

/-- One worker wake-up applied to the runner state: run every
currently-due task, appending to the execution log. -/
def drainDue (s : RunnerState) : RunnerState :=
  { s with
    queue := (drainList s.now s.queue).1,
    log := s.log ++ (drainList s.now s.queue).2 }

/-- User-facing handle of the dedicated-thread runner
(`ThreadTaskRunner`): the reference-counted internal state plus whether
`Detach()` has been called on the `std::thread` member. -/
structure ThreadTaskRunnerHandle where
  runner : RunnerState
  detached : Bool
  deriving Repr, DecidableEq

/-- Modelled from the spec: the missing `ThreadTaskRunner::Detach` body
— "Detaches internal thread in order not to block in destructor"; only
the handle's coupling changes, the internal state is untouched. -/
def detachHandle (h : ThreadTaskRunnerHandle) : ThreadTaskRunnerHandle :=
  { h with detached := true }

/-- Modelled from the spec: the missing `ThreadTaskRunner` destructor
(§4.2).  After `Detach()` it neither signals shutdown nor waits for the
worker (the internal state is returned unchanged); otherwise it sets
`should_exit_`, wakes the worker, and waits for the drain of every
currently-due task before returning.  The result is the internal state
observable when the destructor returns. -/
def destroyHandle (h : ThreadTaskRunnerHandle) : RunnerState :=
  if h.detached then
    h.runner
  else
    drainDue { h.runner with should_exit := true }

/-- Pool runner (`ThreadPoolTaskRunner`): the configured worker count
(`threads_num()`) plus the shared internal state; per §4.3 each worker
runs the identical wait/extract/execute loop on the one shared queue. -/
structure ThreadPoolTaskRunner where
  threadsNum : Nat
  runner : RunnerState
  deriving Repr, DecidableEq

/-- Modelled from the spec: pool construction (§6) — a worker count
that is not a positive integer fails fast at construction (`none`);
otherwise the pool starts with a fresh internal state and reports the
configured count. -/
def mkThreadPoolTaskRunner (threadsNum : Nat) (n : Int) :
    Option ThreadPoolTaskRunner :=
  if threadsNum = 0 then none else some ⟨threadsNum, initState n⟩

/-- Runtime introspection `threads_num()` of the pool variant. -/
def threadsNumOf (p : ThreadPoolTaskRunner) : Nat :=
  p.threadsNum

/-- Modelled from the spec: the missing `ThreadPoolTaskRunner`
destructor (§4.3) — always signals shutdown, wakes every worker, and
waits for them to drain and exit before returning; there is no detach
option for the pool variant.  The result is the internal state
observable when the destructor returns. -/
def destroyPool (p : ThreadPoolTaskRunner) : RunnerState :=
  drainDue { p.runner with should_exit := true }

/-! File utilities, embedded from `rst/files/file_utils.cc`.

A file system is a map from file names to byte contents (`List Char`).
`fopen`/`fwrite`/`fclose`/`rename` faults are environment behaviour,
embedded as an explicit outcome argument to `WriteFile`; `ReadFile` is
embedded for the fault-free read environment (`fopen` succeeds exactly
when the file exists, `fread`/`fclose` succeed), with `ftell`'s success
kept as the `sizeKnown` argument since it selects the chunk size. -/

/-- Status outcome of the file helpers: `Status::OK()` or an error
built by `MakeStatus<FileOpenError>` / `MakeStatus<FileError>` with the
formatted message. -/
inductive FStatus where
  | ok
  | fileOpenError (message : String)
  | fileError (message : String)
  deriving Repr, DecidableEq

/-- File-system state: contents of each named file, `none` when the
file does not exist. -/
def FileSystem : Type :=
  String → Option (List Char)

/-- Point update of a file system. -/
def fsUpdate (fs : FileSystem) (name : String) (v : Option (List Char)) :
    FileSystem :=
  fun k => if k = name then v else fs k

/-- `std::rename(src, dst)` on the file-system state: `dst` receives
the contents of `src` and `src` disappears. -/
def fsRename (fs : FileSystem) (src dst : String) : FileSystem :=
  fsUpdate (fsUpdate fs dst (fs src)) src none

/-- Environment outcome of one `WriteFile` call: `fopen` fails, or
`fwrite` returns `written ≠ data.size()` bytes, or `fclose` fails, or
everything succeeds. -/
inductive WriteOutcome where
  | openFail
  | writeFail (written : Nat)
  | closeFail
  | success
  deriving Repr, DecidableEq

/-- `rst::WriteFile` from `file_utils.cc`: `fopen(filename, "wb")`
truncates/creates the file, a short `fwrite` leaves the bytes written
so far, `fclose` failure still leaves the full data; each failure
returns the corresponding error status. -/
def writeFile (fs : FileSystem) (filename : String) (data : List Char) :
    WriteOutcome → FStatus × FileSystem
  | .openFail =>
    (.fileOpenError ("Can't open file " ++ filename), fs)
  | .writeFail written =>
    (.fileError ("Can't write file " ++ filename),
      fsUpdate fs filename (some (data.take written)))
  | .closeFail =>
    (.fileError ("Can't close file " ++ filename),
      fsUpdate fs filename (some data))
  | .success =>
    (.ok, fsUpdate fs filename (some data))

/-- `rst::WriteImportantFile` from `file_utils.cc`: write the data to
`Format("{}._tmp_", filename)`, propagate a write failure via
`RST_TRY`, then `std::rename` the temporary onto `filename`. -/
def writeImportantFile (fs : FileSystem) (filename : String)
    (data : List Char) (w : WriteOutcome) (renameOk : Bool) :
    FStatus × FileSystem :=
  let temp_filename := filename ++ "._tmp_"
  let r := writeFile fs temp_filename data w
  if r.1 = .ok then
    if renameOk then
      (.ok, fsRename r.2 temp_filename filename)
    else
      (.fileError ("Can't rename temp file " ++ temp_filename), r.2)
  else
    r

/-- Read loop of `rst::ReadFile`: each pass `fread`s up to `chunk`
bytes from the unread remainder; a pass that comes back short sets
`feof` and ends the loop.  The result is the concatenation of every
pass's bytes (the final `content.resize(bytes_read_so_far)` trims the
unused tail of the last chunk).  `chunk = 0` cannot arise: `ReadFile`
always increments the chunk size before the loop. -/
def readChunks (rest : List Char) (chunk : Nat) : List Char :=
  match chunk with
  | 0 => rest
  | c + 1 =>
    if rest.length < c + 1 then
      rest
    else
      rest.take (c + 1) ++ readChunks (rest.drop (c + 1)) (c + 1)
termination_by rest.length
decreasing_by
  simp only [List.length_drop]
  omega

/-- The 128*1024 - 1 fallback chunk size of `rst::ReadFile`
(`kDefaultChunkSize`), used when the file size is unavailable or 0. -/
def kDefaultChunkSize : Nat :=
  128 * 1024 - 1

/-- `rst::ReadFile` from `file_utils.cc`: open for reading, take the
chunk size from the file size when `ftell` provides it (`sizeKnown`),
falling back to `kDefaultChunkSize` on failure or for size-0 files,
increment it, then run the chunked read loop. -/
def readFile (fs : FileSystem) (filename : String) (sizeKnown : Bool) :
    Except FStatus (List Char) :=
  match fs filename with
  | none => .error (.fileOpenError ("Can't open file " ++ filename))
  | some content =>
    let size := content.length
    let chunkSize0 := if sizeKnown then size else kDefaultChunkSize
    let chunkSize1 := if chunkSize0 = 0 then kDefaultChunkSize else chunkSize0
    .ok (readChunks content (chunkSize1 + 1))

/-! Helper lemmas about the queue and the worker loop. -/

theorem queueInsert_append (a : Item) (l : List Item)
    (h : ∀ b ∈ l, ¬ itemLe a b) : queueInsert a l = l ++ [a] := by
  induction l with
  | nil => rfl
  | cons b t ih =>
    unfold queueInsert List.orderedInsert
    rw [if_neg (h b (List.mem_cons_self b t))]
    have := ih fun x hx => h x (List.mem_cons_of_mem b hx)
    unfold queueInsert at this
    rw [this]
    simp

/-- Items appended by a sequence of posts: the i-th pair `(task, delay)`
becomes an item with due time `now + delay` and sequence `tid + i`. -/
def itemsOf (now : Int) (tid : Nat) : List (Nat × Int) → List Item
  | [] => []
  | (t, d) :: ps => ⟨now + d, tid, t⟩ :: itemsOf now (tid + 1) ps

theorem itemsOf_append (now : Int) (tid : Nat) (ps qs : List (Nat × Int)) :
    itemsOf now tid (ps ++ qs) =
      itemsOf now tid ps ++ itemsOf now (tid + ps.length) qs := by
  induction ps generalizing tid with
  | nil => simp [itemsOf]
  | cons p t ih =>
    obtain ⟨pt, pd⟩ := p
    simp only [List.cons_append, itemsOf, List.append_eq, List.length_cons]
    rw [ih (tid + 1), show tid + (t.length + 1) = tid + 1 + t.length by omega]

theorem itemsOf_const_delay (now d : Int) :
    ∀ (n a : Nat),
      itemsOf now a ((List.range' a n).map fun i => (i, d)) =
        (List.range' a n).map fun i => Item.mk (now + d) i i := by
  intro n
  induction n with
  | zero => intro a; rfl
  | succ m ih =>
    intro a
    rw [List.range'_succ]
    simp only [List.map_cons, itemsOf]
    rw [ih (a + 1)]

/-- Posting a contract-respecting, delay-monotone batch of tasks whose
due times do not precede anything already queued appends the new items
at the back of the queue, in post order. -/
theorem postMany_eq (s : RunnerState) (ps : List (Nat × Int))
    (h0 : ∀ p ∈ ps, 0 ≤ p.2)
    (hmono : ps.Pairwise fun p q => p.2 ≤ q.2)
    (hq : ∀ it ∈ s.queue,
      it.task_id < s.task_id ∧ ∀ p ∈ ps, it.time_point ≤ s.now + p.2) :
    postMany s ps = some { s with
      queue := s.queue ++ itemsOf s.now s.task_id ps,
      task_id := s.task_id + ps.length } := by
  induction ps generalizing s with
  | nil => simp [postMany, itemsOf]
  | cons p t ih =>
    obtain ⟨pt, pd⟩ := p
    have hd : 0 ≤ pd := h0 _ (List.mem_cons_self _ _)
    have hstep : postDelayedTask s pt pd = some { s with
        queue := s.queue ++ [⟨s.now + pd, s.task_id, pt⟩],
        task_id := s.task_id + 1 } := by
      unfold postDelayedTask
      rw [if_neg (not_lt.mpr hd)]
      congr 1
      have : queueInsert ⟨s.now + pd, s.task_id, pt⟩ s.queue
          = s.queue ++ [⟨s.now + pd, s.task_id, pt⟩] := by
        apply queueInsert_append
        intro b hb
        obtain ⟨hid, htime⟩ := hq b hb
        have hb_time : b.time_point ≤ s.now + pd :=
          htime _ (List.mem_cons_self _ _)
        unfold itemLe
        push_neg
        constructor
        · simpa using hb_time
        · intro heq
          simp only [heq] at hb_time ⊢
          omega
      rw [this]
    rw [postMany, hstep, Option.some_bind]
    set s1 : RunnerState := { s with
      queue := s.queue ++ [⟨s.now + pd, s.task_id, pt⟩],
      task_id := s.task_id + 1 } with hs1
    have hmono' := (List.pairwise_cons.mp hmono).2
    have hhead := (List.pairwise_cons.mp hmono).1
    have := ih s1
      (fun q hqmem => h0 q (List.mem_cons_of_mem _ hqmem)) hmono'
      (by
        intro it hit
        rw [hs1] at hit ⊢
        simp only [List.mem_append, List.mem_singleton] at hit
        rcases hit with hold | hnew
        · obtain ⟨hid, htime⟩ := hq it hold
          exact ⟨Nat.lt_succ_of_lt hid,
            fun q hqmem => htime q (List.mem_cons_of_mem _ hqmem)⟩
        · subst hnew
          refine ⟨Nat.lt_succ_self _, ?_⟩
          intro q hqmem
          simp only
          have := hhead q hqmem
          omega)
    rw [this, hs1]
    have harith : s.task_id + 1 + t.length = s.task_id + (t.length + 1) := by
      omega
    simp only [itemsOf, List.length_cons, harith, List.append_assoc,
      List.singleton_append]

/-- Drain of a queue that splits into a due prefix and a not-due
suffix: the due prefix runs, in order, and the suffix stays queued. -/
theorem drainList_split (now : Int) (l1 l2 : List Item)
    (h1 : ∀ it ∈ l1, it.time_point ≤ now)
    (h2 : ∀ it ∈ l2, ¬ it.time_point ≤ now) :
    drainList now (l1 ++ l2) = (l2, l1.map fun it => toString it.task) := by
  induction l1 with
  | nil =>
    cases l2 with
    | nil => rfl
    | cons b t =>
      simp only [List.nil_append, drainList, List.map_nil]
      rw [if_neg (h2 b (List.mem_cons_self b t))]
  | cons a t ih =>
    simp only [List.cons_append, drainList, List.map_cons, List.append_eq]
    rw [if_pos (h1 a (List.mem_cons_self a t))]
    rw [ih fun it hit => h1 it (List.mem_cons_of_mem a hit)]

theorem pairwise_const_delay (l : List Nat) (d : Int) :
    (l.map fun i => (i, d)).Pairwise (fun p q : Nat × Int => p.2 ≤ q.2) := by
  rw [List.pairwise_map]
  induction l with
  | nil => exact List.Pairwise.nil
  | cons a t ih => exact List.Pairwise.cons (fun _ _ => le_refl d) ih

/-- Delay-monotonicity of the concrete two-batch post pattern used by
the delayed-order scenario. -/
theorem pairwise_two_batches (l1 l2 : List Nat) (d1 d2 : Int)
    (h : d1 ≤ d2) :
    ((l1.map fun i => (i, d1)) ++ l2.map fun i => (i, d2)).Pairwise
      (fun p q : Nat × Int => p.2 ≤ q.2) := by
  rw [List.pairwise_append]
  refine ⟨pairwise_const_delay l1 d1, pairwise_const_delay l2 d2, ?_⟩
  intro p hp q hq
  obtain ⟨i, _, hpi⟩ := List.mem_map.mp hp
  obtain ⟨j, _, hqj⟩ := List.mem_map.mp hq
  rw [← hpi, ← hqj]
  exact h

/-- Sequential chunked reads reassemble exactly the file contents, for
any positive chunk size. -/
theorem readChunks_eq (rest : List Char) (c : Nat) :
    readChunks rest (c + 1) = rest := by
  have H : ∀ (n : Nat) (l : List Char), l.length = n →
      readChunks l (c + 1) = l := by
    intro n
    induction n using Nat.strong_induction_on with
    | _ n ih =>
      intro l hn
      unfold readChunks
      by_cases h : l.length < c + 1
      · rw [if_pos h]
      · rw [if_neg h]
        rw [ih (l.drop (c + 1)).length (by simp only [List.length_drop]; omega)
          (l.drop (c + 1)) rfl]
        exact List.take_append_drop (c + 1) l
  exact H rest.length rest rfl

/-! Claim theorems. -/

/-- C1: for every state of the task queue reachable by insertions and
extractions, extraction returns the item whose (due_time, sequence)
pair is lexicographically smallest among the items present, and the
post-extraction state is again such a state (so the invariant holds
after every insertion and after every extraction). -/
theorem claim_C1_extract_lex_min (q : List Item) (hq : QueueReachable q)
    (x : Item) (rest : List Item) (hx : extractMin q = some (x, rest)) :
    (∀ y ∈ q, itemLe x y) ∧ QueueReachable rest := by
  have hs := reachable_sorted hq
  cases q with
  | nil => cases hx
  | cons a t =>
    cases hx
    refine ⟨?_, QueueReachable.extract hq rfl⟩
    intro y hy
    rcases List.mem_cons.mp hy with h | h
    · subst h; exact refl_of itemLe y
    · exact (List.sorted_cons.mp hs).1 y h

theorem claim_C1_extract_lex_min_witness :
    (∀ y ∈ queueInsert ⟨5, 1, 1⟩ (queueInsert ⟨3, 0, 0⟩ []),
      itemLe ⟨3, 0, 0⟩ y) ∧
    QueueReachable [⟨5, 1, 1⟩] :=
  claim_C1_extract_lex_min _
    (QueueReachable.insert _ (QueueReachable.insert _ QueueReachable.empty))
    ⟨3, 0, 0⟩ [⟨5, 1, 1⟩] (by decide)

/-- C2: `PostDelayedTask` with a negative delay violates the
`delay ≥ 0` precondition and fails fast (`none`, the contract-failure
outcome, not a recoverable status); under the precondition the failure
branch is unreachable (the post always succeeds).  `RunnerState` is the
internal state shared by both runner variants, which run the identical
post logic, so this covers every runner variant and every task. -/
theorem claim_C2_negative_delay_fails_fast (s : RunnerState) (task : Nat)
    (delay : Int) :
    (delay < 0 → postDelayedTask s task delay = none) ∧
    (0 ≤ delay → (postDelayedTask s task delay).isSome = true) := by
  constructor
  · intro h
    simp [postDelayedTask, h]
  · intro h
    simp [postDelayedTask, not_lt.mpr h]

theorem claim_C2_negative_delay_fails_fast_witness :
    postDelayedTask (initState 0) 0 (-1) = none ∧
    (postDelayedTask (initState 0) 0 0).isSome = true :=
  ⟨(claim_C2_negative_delay_fails_fast (initState 0) 0 (-1)).1 (by decide),
   (claim_C2_negative_delay_fails_fast (initState 0) 0 0).2 (by decide)⟩

/-- C5: destroying a pool runner signals shutdown and waits for the
drain: with any number of pending due tasks, all of them are executed,
in queue order, before the destructor returns, and the queue is empty
afterwards. -/
theorem claim_C5_pool_destructor_drains (p : ThreadPoolTaskRunner)
    (h : ∀ it ∈ p.runner.queue, it.time_point ≤ p.runner.now) :
    (destroyPool p).should_exit = true ∧
    (destroyPool p).queue = [] ∧
    (destroyPool p).log =
      p.runner.log ++ p.runner.queue.map fun it => toString it.task := by
  have hd := drainList_split p.runner.now p.runner.queue [] h (by simp)
  rw [List.append_nil] at hd
  unfold destroyPool drainDue
  simp [hd]

theorem claim_C5_pool_destructor_drains_witness :
    (destroyPool ⟨1, ⟨0, [⟨0, 0, 3⟩, ⟨0, 1, 4⟩], 2, false, []⟩⟩).should_exit
      = true ∧
    (destroyPool ⟨1, ⟨0, [⟨0, 0, 3⟩, ⟨0, 1, 4⟩], 2, false, []⟩⟩).queue = [] ∧
    (destroyPool ⟨1, ⟨0, [⟨0, 0, 3⟩, ⟨0, 1, 4⟩], 2, false, []⟩⟩).log =
      (⟨0, [⟨0, 0, 3⟩, ⟨0, 1, 4⟩], 2, false, []⟩ : RunnerState).log ++
        (⟨0, [⟨0, 0, 3⟩, ⟨0, 1, 4⟩], 2, false, []⟩ : RunnerState).queue.map
          fun it => toString it.task :=
  claim_C5_pool_destructor_drains ⟨1, ⟨0, [⟨0, 0, 3⟩, ⟨0, 1, 4⟩], 2, false, []⟩⟩
    (by decide)

/-- C6: `PostTask(task)` is `PostDelayedTask(task, 0)` — it yields the
item with `due_time = current_time() + 0`, the next sequence number,
inserted exactly as the zero-delay delayed post does (which always
succeeds). -/
theorem claim_C6_postTask_is_zero_delay_post (s : RunnerState) (task : Nat) :
    some (postTask s task) = postDelayedTask s task 0 := by
  simp [postTask, postDelayedTask]

/-- C7: after `Detach()`, destroying the handle neither signals
shutdown nor waits for the worker — the internal state, including the
shutdown flag, is untouched; without `Detach()`, destruction signals
shutdown and blocks until all tasks due at shutdown time have
executed. -/
theorem claim_C7_detach_skips_shutdown (h : ThreadTaskRunnerHandle) :
    (destroyHandle (detachHandle h) = h.runner ∧
      (destroyHandle (detachHandle h)).should_exit = h.runner.should_exit) ∧
    (h.detached = false →
      (∀ it ∈ h.runner.queue, it.time_point ≤ h.runner.now) →
        (destroyHandle h).should_exit = true ∧
        (destroyHandle h).queue = [] ∧
        (destroyHandle h).log =
          h.runner.log ++ h.runner.queue.map fun it => toString it.task) := by
  constructor
  · constructor
    · rfl
    · rfl
  · intro hdet hdue
    have hd := drainList_split h.runner.now h.runner.queue [] hdue (by simp)
    rw [List.append_nil] at hd
    unfold destroyHandle drainDue
    rw [hdet]
    simp [hd]

theorem claim_C7_detach_skips_shutdown_witness :
    (destroyHandle ⟨⟨0, [⟨0, 0, 7⟩], 1, false, []⟩, false⟩).should_exit
      = true ∧
    (destroyHandle ⟨⟨0, [⟨0, 0, 7⟩], 1, false, []⟩, false⟩).queue = [] ∧
    (destroyHandle ⟨⟨0, [⟨0, 0, 7⟩], 1, false, []⟩, false⟩).log =
      (⟨0, [⟨0, 0, 7⟩], 1, false, []⟩ : RunnerState).log ++
        (⟨0, [⟨0, 0, 7⟩], 1, false, []⟩ : RunnerState).queue.map
          fun it => toString it.task :=
  (claim_C7_detach_skips_shutdown ⟨⟨0, [⟨0, 0, 7⟩], 1, false, []⟩, false⟩).2
    rfl (by decide)

/-- C8: a pool constructed with `k` workers, `1 ≤ k ≤ 24`, reports
`threads_num() = k`; construction with a worker count that is not a
positive integer fails fast. -/
theorem claim_C8_threads_num_reported (k : Nat) (h1 : 1 ≤ k)
    (h24 : k ≤ 24) :
    (∃ p, mkThreadPoolTaskRunner k 0 = some p ∧ threadsNumOf p = k) ∧
    mkThreadPoolTaskRunner 0 0 = none := by
  refine ⟨⟨⟨k, initState 0⟩, ?_, rfl⟩, rfl⟩
  unfold mkThreadPoolTaskRunner
  rw [if_neg (by omega)]

theorem claim_C8_threads_num_reported_witness :
    (∃ p, mkThreadPoolTaskRunner 24 0 = some p ∧ threadsNumOf p = 24) ∧
    mkThreadPoolTaskRunner 0 0 = none :=
  claim_C8_threads_num_reported 24 (by decide) (by decide)

/-- C3: on a single-worker runner, posting `N` zero-delay tasks in
order `i = 0 .. N-1`, where task `i` appends `str(i)` to the shared
log, and letting the worker drain, yields a final log whose
concatenation is exactly "0123...(N-1)": zero-delay tasks execute in
post order (FIFO), for every `N`. -/
theorem claim_C3_single_worker_fifo (N : Nat) :
    ∃ s,
      postMany (initState 0) ((List.range N).map fun i => (i, (0 : Int)))
        = some s ∧
      (drainDue s).log = (List.range N).map (fun i => toString i) ∧
      String.join ((drainDue s).log) =
        String.join ((List.range N).map fun i => toString i) ∧
      (drainDue s).queue = [] := by
  have h0 : ∀ p ∈ (List.range N).map fun i => (i, (0 : Int)), 0 ≤ p.2 := by
    intro p hp
    obtain ⟨i, _, rfl⟩ := List.mem_map.mp hp
    exact le_refl 0
  have hpost := postMany_eq (initState 0) _ h0
    (pairwise_const_delay (List.range N) 0)
    (by intro it hit; simp [initState] at hit)
  have hqueue : itemsOf (0 : Int) 0 ((List.range N).map fun i => (i, (0 : Int)))
      = (List.range' 0 N).map fun i => Item.mk 0 i i := by
    rw [List.range_eq_range', itemsOf_const_delay]
    simp
  have hdrain := drainList_split (0 : Int)
    ((List.range' 0 N).map fun i => Item.mk 0 i i) []
    (by
      intro it hit
      obtain ⟨i, _, rfl⟩ := List.mem_map.mp hit
      exact le_refl 0)
    (by simp)
  rw [List.append_nil] at hdrain
  have hlog : (drainDue { initState 0 with
      queue := (initState 0).queue ++
        itemsOf (initState 0).now (initState 0).task_id
          ((List.range N).map fun i => (i, (0 : Int))),
      task_id := (initState 0).task_id +
        ((List.range N).map fun i => (i, (0 : Int))).length }).log
      = (List.range N).map fun i => toString i := by
    simp only [drainDue, initState, List.nil_append, hqueue, hdrain]
    simp [List.map_map, Function.comp, List.range_eq_range']
  refine ⟨_, hpost, hlog, congrArg String.join hlog, ?_⟩
  simp only [drainDue, initState, List.nil_append, hqueue, hdrain]

/-- Posting one batch of `n` tasks at delay `d1` and then one batch of
`m` tasks at delay `d2 > d1`, all from time 0: advancing the injected
clock to `d1` and draining runs exactly the first batch, in post order;
then advancing to `d2` and draining runs the second batch, so the full
log is the `n + m` tasks in post order and the queue is empty. -/
theorem two_batch_drain (n m : Nat) (d1 d2 : Int) (hd1 : 0 ≤ d1)
    (hd12 : d1 < d2) :
    ∃ s,
      postMany (initState 0)
          (((List.range' 0 n).map fun i => (i, d1)) ++
            (List.range' n m).map fun i => (i, d2)) = some s ∧
      (drainDue { s with now := d1 }).log =
        (List.range' 0 n).map (fun i => toString i) ∧
      (drainDue { drainDue { s with now := d1 } with now := d2 }).log =
        (List.range' 0 (n + m)).map (fun i => toString i) ∧
      (drainDue { drainDue { s with now := d1 } with now := d2 }).queue
        = [] := by
  have h0 : ∀ p ∈ ((List.range' 0 n).map fun i => (i, d1)) ++
      (List.range' n m).map fun i => (i, d2), 0 ≤ p.2 := by
    intro p hp
    rcases List.mem_append.mp hp with h | h
    · obtain ⟨i, _, rfl⟩ := List.mem_map.mp h
      exact hd1
    · obtain ⟨i, _, rfl⟩ := List.mem_map.mp h
      exact le_of_lt (lt_of_le_of_lt hd1 hd12)
  have hpost := postMany_eq (initState 0) _ h0
    (pairwise_two_batches _ _ d1 d2 (le_of_lt hd12))
    (by intro it hit; simp [initState] at hit)
  have hqueue : itemsOf (0 : Int) 0
      (((List.range' 0 n).map fun i => (i, d1)) ++
        (List.range' n m).map fun i => (i, d2))
      = ((List.range' 0 n).map fun i => Item.mk (0 + d1) i i) ++
          (List.range' n m).map fun i => Item.mk (0 + d2) i i := by
    rw [itemsOf_append, itemsOf_const_delay]
    congr 1
    have hlen : ((List.range' 0 n).map fun i => (i, d1)).length = n := by
      simp
    rw [hlen, Nat.zero_add, itemsOf_const_delay]
  have hdue1 : ∀ it ∈ (List.range' 0 n).map fun i => Item.mk (0 + d1) i i,
      it.time_point ≤ d1 := by
    intro it hit
    obtain ⟨i, _, rfl⟩ := List.mem_map.mp hit
    simp
  have hnotdue2 : ∀ it ∈ (List.range' n m).map fun i => Item.mk (0 + d2) i i,
      ¬ it.time_point ≤ d1 := by
    intro it hit
    obtain ⟨i, _, rfl⟩ := List.mem_map.mp hit
    simp only [Item.mk.injEq]
    omega
  have hdrain1 := drainList_split d1
    ((List.range' 0 n).map fun i => Item.mk (0 + d1) i i)
    ((List.range' n m).map fun i => Item.mk (0 + d2) i i) hdue1 hnotdue2
  have hdue2 : ∀ it ∈ (List.range' n m).map fun i => Item.mk (0 + d2) i i,
      it.time_point ≤ d2 := by
    intro it hit
    obtain ⟨i, _, rfl⟩ := List.mem_map.mp hit
    simp
  have hdrain2 := drainList_split d2
    ((List.range' n m).map fun i => Item.mk (0 + d2) i i) [] hdue2 (by simp)
  rw [List.append_nil] at hdrain2
  have hmap1 : ((List.range' 0 n).map fun i => Item.mk (0 + d1) i i).map
      (fun it => toString it.task) = (List.range' 0 n).map fun i =>
        toString i := by
    simp [List.map_map, Function.comp]
  have hmap2 : ((List.range' n m).map fun i => Item.mk (0 + d2) i i).map
      (fun it => toString it.task) = (List.range' n m).map fun i =>
        toString i := by
    simp [List.map_map, Function.comp]
  have hjoin : ((List.range' 0 n).map fun i => (toString i : String)) ++
      (List.range' n m).map (fun i => toString i) =
      (List.range' 0 (n + m)).map fun i => toString i := by
    rw [← List.map_append]
    congr 1
    have := List.range'_append 0 n m 1
    simp only [Nat.one_mul, Nat.zero_add] at this
    rw [this, Nat.add_comm]
  refine ⟨_, hpost, ?_, ?_, ?_⟩
  · simp only [drainDue, initState, List.nil_append, hqueue, hdrain1]
    simp [hmap1]
  · simp only [drainDue, initState, List.nil_append, hqueue, hdrain1,
      hdrain2]
    simp only [List.nil_append, hmap1, hmap2]
    exact hjoin
  · simp only [drainDue, initState, List.nil_append, hqueue, hdrain1,
      hdrain2]

/-- C4: posting 500 tasks at delay 100 and then 500 tasks at delay
200, and advancing the injected clock to 100: exactly the first 500
tasks have executed, in post order; advancing further to 200: all 1000
have executed.  No task of the 200-delay group runs before the
100-delay group's due time has passed, since the log at clock 100 is
exactly the first group. -/
theorem claim_C4_delayed_groups_in_order :
    ∃ s,
      postMany (initState 0)
          (((List.range 500).map fun i => (i, (100 : Int))) ++
            (List.range' 500 500).map fun i => (i, (200 : Int))) = some s ∧
      (drainDue { s with now := 100 }).log =
        (List.range 500).map (fun i => toString i) ∧
      (drainDue { drainDue { s with now := 100 } with now := 200 }).log =
        (List.range 1000).map (fun i => toString i) ∧
      (drainDue { drainDue { s with now := 100 } with now := 200 }).queue
        = [] := by
  have h := two_batch_drain 500 500 100 200 (by norm_num) (by norm_num)
  rw [show List.range' 0 500 = List.range 500 from
    (List.range_eq_range' 500).symm] at h
  rw [show List.range' 0 (500 + 500) = List.range 1000 from
    (List.range_eq_range' 1000).symm] at h
  exact h

/-- C9: `WriteImportantFile(filename, data)` is atomic with respect to
the target file: the data goes to the temporary `filename ++ "._tmp_"`,
which is renamed onto `filename` only after the write fully succeeds;
if writing the temporary fails — open, short write, or close failure —
an error status is returned and the file named `filename` keeps its
previous contents. -/
theorem claim_C9_write_important_file_atomic (fs : FileSystem)
    (filename : String) (data : List Char) (w : WriteOutcome)
    (renameOk : Bool) :
    (w ≠ .success →
      (writeImportantFile fs filename data w renameOk).1 ≠ .ok ∧
      (writeImportantFile fs filename data w renameOk).2 filename
        = fs filename) ∧
    (w = .success → renameOk = true →
      (writeImportantFile fs filename data w renameOk).1 = .ok ∧
      (writeImportantFile fs filename data w renameOk).2 filename
        = some data) := by
  have hne : filename ≠ filename ++ "._tmp_" := by
    intro hcontra
    have hlen := congrArg String.length hcontra
    rw [String.length_append] at hlen
    have h6 : ("._tmp_" : String).length = 6 := rfl
    omega
  constructor
  · intro hw
    cases w with
    | openFail =>
      refine ⟨?_, rfl⟩
      simp [writeImportantFile, writeFile]
    | writeFail written =>
      constructor
      · simp [writeImportantFile, writeFile]
      · show (writeImportantFile fs filename data (.writeFail written)
          renameOk).2 filename = fs filename
        simp only [writeImportantFile, writeFile]
        rw [if_neg (by simp)]
        show fsUpdate fs (filename ++ "._tmp_") _ filename = fs filename
        unfold fsUpdate
        rw [if_neg hne]
    | closeFail =>
      constructor
      · simp [writeImportantFile, writeFile]
      · show (writeImportantFile fs filename data .closeFail
          renameOk).2 filename = fs filename
        simp only [writeImportantFile, writeFile]
        rw [if_neg (by simp)]
        show fsUpdate fs (filename ++ "._tmp_") _ filename = fs filename
        unfold fsUpdate
        rw [if_neg hne]
    | success => exact absurd rfl hw
  · intro hw hr
    subst hw
    subst hr
    constructor
    · simp [writeImportantFile, writeFile]
    · show (writeImportantFile fs filename data .success true).2 filename
        = some data
      simp only [writeImportantFile, writeFile]
      rw [if_pos trivial, if_pos trivial]
      show fsRename (fsUpdate fs (filename ++ "._tmp_") (some data))
        (filename ++ "._tmp_") filename filename = some data
      unfold fsRename fsUpdate
      rw [if_neg hne, if_pos rfl, if_pos rfl]

theorem claim_C9_write_important_file_atomic_witness :
    ((writeImportantFile (fun _ => none) "a" ['x'] .openFail true).1
        ≠ .ok ∧
      (writeImportantFile (fun _ => none) "a" ['x'] .openFail true).2 "a"
        = (fun _ => none : FileSystem) "a") ∧
    ((writeImportantFile (fun _ => none) "a" ['x'] .success true).1
        = .ok ∧
      (writeImportantFile (fun _ => none) "a" ['x'] .success true).2 "a"
        = some ['x']) :=
  ⟨(claim_C9_write_important_file_atomic (fun _ => none) "a" ['x']
      .openFail true).1 (by decide),
   (claim_C9_write_important_file_atomic (fun _ => none) "a" ['x']
      .success true).2 rfl rfl⟩

/-- C10: write-then-read round-trips: whenever `WriteFile(filename,
data)` returns OK, `ReadFile(filename)` returns exactly `data` — both
when the chunk size comes from the file size and when it falls back to
the 128*1024-byte default chunk (contents larger than one chunk are
reassembled across passes). -/
theorem claim_C10_write_read_roundtrip (fs : FileSystem)
    (filename : String) (data : List Char) (w : WriteOutcome)
    (sizeKnown : Bool)
    (hok : (writeFile fs filename data w).1 = .ok) :
    readFile (writeFile fs filename data w).2 filename sizeKnown
      = .ok data := by
  cases w with
  | openFail => simp [writeFile] at hok
  | writeFail written => simp [writeFile] at hok
  | closeFail => simp [writeFile] at hok
  | success =>
    show readFile (fsUpdate fs filename (some data)) filename sizeKnown
      = .ok data
    have hlook : fsUpdate fs filename (some data) filename = some data := by
      unfold fsUpdate
      rw [if_pos rfl]
    unfold readFile
    rw [hlook]
    exact congrArg Except.ok (readChunks_eq data _)

theorem claim_C10_write_read_roundtrip_witness :
    readFile (writeFile (fun _ => none) "f" ['h', 'i'] .success).2 "f" true
      = .ok ['h', 'i'] :=
  claim_C10_write_read_roundtrip (fun _ => none) "f" ['h', 'i'] .success
    true rfl

end Rst
